import Mathlib

/-!
# Verification of the logrot rotation engine

A shallow embedding of the `logrot` package (file `logrot.go` of the
repository, the newer byte-offset based variant).  The Go code is a log
writer that appends bytes to a live file, tracking the file size and the
offset of the most recent newline, and rotates (gzip-archives the prefix up
to the last newline, compacts the remainder to the file start) whenever the
file would grow past `maxSize`.

Modelling conventions:
* Bytes are `UInt8`; the newline byte is `10`.
* Go `int64` sizes and offsets are `Nat`; the `-1` sentinel stored in
  `wc.lastNewline` becomes `Option Nat` (`none` ↔ `-1`).  All quantities the
  code keeps in those fields are non-negative, except for the sentinel.
* The live file is a `List UInt8`; `os.File.WriteAt` and `Truncate` become
  the pure `writeAt` / `truncate` below.
* The gzip archives `<path>.<n>.gz` become an association list
  `List (Nat × Gz)`; a `Gz` records the bytes that were compressed (the
  compression codec is outside the verified core, so an archive is
  identified by its uncompressed content).
* File-system operations never fail in this model (the happy path).  The
  one genuinely non-returning behaviour of the code — the Go runtime panic
  raised by `p[:br]` when `br = int(max - wc.size)` is negative — is
  modelled explicitly: `writeStep`/`writeLoop`/`Write` return `none` there.
* The `sync.Mutex` is not modelled: all operations are sequential functions
  on the state, which is exactly what the lock enforces.
-/

set_option linter.unusedVariables false

namespace Logrot

/-- A gzip archive file.  `data` is the byte sequence that was compressed
into it; the codec itself is treated as an opaque, injective stream
transformation (out of scope per the spec), so the archive is represented
by its uncompressed content. -/
structure Gz where
  data : List UInt8
deriving DecidableEq, Repr

/-- Errors produced by the writer (`error` values in Go). -/
inductive Err where
  /-- `"logrot: WriteCloser is closed"` -/
  | closed : Err
  /-- `fmt.Errorf("logrot: Write cannot complete due to previous error: %v", e)` -/
  | sticky : Err → Err
  /-- some underlying file-system failure (used only to build sample states;
  the happy-path model itself never produces one) -/
  | io : Nat → Err
deriving DecidableEq, Repr

/-- The `writeCloser` struct of the Go code, together with the piece of the
file system it manipulates (its live file and the `<path>.<n>.gz`
archives).  `size` mirrors `wc.size`, `lastNewline` mirrors `wc.lastNewline`
(`none` for the Go sentinel `-1`). -/
structure WCS where
  path : String
  perm : Nat
  maxSize : Nat
  maxFiles : Nat
  live : List UInt8
  size : Nat
  lastNewline : Option Nat
  gz : List (Nat × Gz)
  closed : Bool
  writeErr : Option Err
deriving DecidableEq, Repr

/-- `file.WriteAt(p, off)`: overwrite bytes starting at offset `off`,
zero-padding (sparse-file semantics) if `off` is past the end, keeping any
bytes after the written region. -/
def writeAt (c : List UInt8) (off : Nat) (p : List UInt8) : List UInt8 :=
  c.take off ++ List.replicate (off - c.length) 0 ++ p ++ c.drop (off + p.length)

/-- `file.Truncate(n)`: cut the file to `n` bytes, zero-extending if it was
shorter. -/
def truncate (c : List UInt8) (n : Nat) : List UInt8 :=
  c.take n ++ List.replicate (n - c.length) 0

/-- `os.Remove` of archive number `n` (removing a non-existent archive is
tolerated by the code, and is a no-op here). -/
def gzRemove (gz : List (Nat × Gz)) (n : Nat) : List (Nat × Gz) :=
  gz.filter (fun e => !(e.1 == n))

/-- `os.Rename` of archive `n` to archive `m`: if `n` exists its content
replaces whatever was at `m`; a missing source is tolerated (`IsNotExist`)
and leaves everything unchanged. -/
def gzRename (gz : List (Nat × Gz)) (n m : Nat) : List (Nat × Gz) :=
  match gz.lookup n with
  | none => gz
  | some c => (m, c) :: gzRemove (gzRemove gz n) m

/-- The probing loop of `rotate` (lines 94–106): find the highest `n` such
that archive `n` exists, probing `1, 2, …` until one is missing.  The Go
loop terminates because the file system is finite; here the fuel
`gz.length` suffices for any association list whose keys are gap-free. -/
def probeGo (gz : List (Nat × Gz)) : Nat → Nat → Nat
  | 0, n => n
  | fuel + 1, n => if (gz.lookup (n + 1)).isSome then probeGo gz fuel (n + 1) else n

def probeN (gz : List (Nat × Gz)) : Nat :=
  probeGo gz gz.length 0

/-- The eviction loop of `rotate` (lines 107–113):
`for ; n > wc.maxFiles-2 && n > 0; n-- { os.Remove(<path>.<n>.gz) }`.
Go computes `maxFiles - 2` in `int`; for `maxFiles ≥ 0` the combined guard
`n > maxFiles-2 && n > 0` agrees with the `Nat`-truncated subtraction used
here.  Returns the remaining archives and the final value of `n`. -/
def evict (mf : Nat) : List (Nat × Gz) → Nat → List (Nat × Gz) × Nat
  | gz, 0 => (gz, 0)
  | gz, n + 1 =>
    if mf - 2 < n + 1 then evict mf (gzRemove gz (n + 1)) n else (gz, n + 1)

/-- The shifting loop of `rotate` (lines 114–122):
`for ; n > 0; n-- { os.Rename(<path>.<n>.gz, <path>.<n+1>.gz) }`,
renaming from the highest surviving number down. -/
def shift : List (Nat × Gz) → Nat → List (Nat × Gz)
  | gz, 0 => gz
  | gz, n + 1 => shift (gzRename gz (n + 1) (n + 2)) n

/-- `(*writeCloser).rotate` (lines 93–175), happy path.  The copy of the
tail to the start of the file (an `io.Copy` from a section reader over the
same file) is overlap-safe in the Go code because every chunk is fully read
before it is written `lastNewline+1 ≥ 1` bytes lower, so its pure
denotation is: write the section `[lastNewline+1, size)` at offset `0`,
then truncate to its length.  `wc.lastNewline + 1` is `0` for the sentinel
(`rotate` is only ever called with a newline recorded, per its own
comment).  Archive `1` is created fresh; after the shift no archive `1`
exists in any gap-free file system, so `O_CREATE` without truncation is
creation. -/
def rotate (s : WCS) : WCS :=
  let n := probeN s.gz
  let ev := evict s.maxFiles s.gz n
  let gz2 := shift ev.1 ev.2
  let lnp1 := match s.lastNewline with
    | some l => l + 1
    | none => 0
  let gz3 := if 1 < s.maxFiles then (1, Gz.mk (s.live.take lnp1)) :: gz2 else gz2
  let sec := (s.live.drop lnp1).take (s.size - lnp1)
  let live1 := truncate (writeAt s.live 0 sec) (s.size - lnp1)
  { s with gz := gz3, live := live1, size := s.size - lnp1, lastNewline := none }

/-- `bytes.IndexByte(p, '\n')`: index of the first newline, if any. -/
def idxNL : List UInt8 → Option Nat
  | [] => none
  | b :: t => if b = 10 then some 0 else (idxNL t).map (· + 1)

theorem idxNL_lt {p : List UInt8} {i : Nat} (h : idxNL p = some i) : i < p.length := by
  induction p generalizing i with
  | nil => simp [idxNL] at h
  | cons b t ih =>
    by_cases hb : b = 10
    · simp [idxNL, hb] at h
      simp [← h]
    · simp [idxNL, hb] at h
      obtain ⟨j, hj, rfl⟩ := h
      have := ih hj
      simp
      omega

/-- The inner scanning loop of `Write` (lines 200–215): walk the input a
line at a time, recording each newline whose would-be absolute offset is
below `maxSize` (or which is the first newline ever), stopping once the
scanned prefix would push the file past `maxSize` or the input is
exhausted.  `pos` is the absolute offset of the head of `p`
(`wc.size + br` in the code); returns the number of bytes scanned and the
updated `wc.lastNewline`. -/
def scan (maxSize pos : Nat) (p : List UInt8) (lastNL : Option Nat) : Nat × Option Nat :=
  match h : idxNL p with
  | none => (p.length, lastNL)
  | some i =>
    let lastNL' := if pos + i < maxSize ∨ lastNL = none then some (pos + i) else lastNL
    if maxSize < pos + i + 1 then (i + 1, lastNL')
    else
      let r := scan maxSize (pos + i + 1) (p.drop (i + 1)) lastNL'
      (i + 1 + r.1, r.2)
termination_by p.length
decreasing_by
  have := idxNL_lt h
  simp
  omega

theorem scan_none {p : List UInt8} (h : idxNL p = none) (ms pos : Nat) (l₀ : Option Nat) :
    scan ms pos p l₀ = (p.length, l₀) := by
  rw [scan]
  split
  · rfl
  next i hi => rw [h] at hi; exact Option.noConfusion hi

theorem scan_some_stop {p : List UInt8} {i : Nat} (h : idxNL p = some i)
    (ms pos : Nat) (l₀ : Option Nat) (hs : ms < pos + i + 1) :
    scan ms pos p l₀ = (i + 1, if pos + i < ms ∨ l₀ = none then some (pos + i) else l₀) := by
  rw [scan]
  split
  · next hn => rw [h] at hn; exact Option.noConfusion hn
  next j hj =>
    rw [h] at hj
    obtain rfl := (Option.some.inj hj).symm
    simp only [if_pos hs]

theorem scan_some_cont {p : List UInt8} {i : Nat} (h : idxNL p = some i)
    (ms pos : Nat) (l₀ : Option Nat) (hs : ¬ ms < pos + i + 1) :
    scan ms pos p l₀ =
      (i + 1 + (scan ms (pos + i + 1) (p.drop (i + 1))
        (if pos + i < ms ∨ l₀ = none then some (pos + i) else l₀)).1,
       (scan ms (pos + i + 1) (p.drop (i + 1))
        (if pos + i < ms ∨ l₀ = none then some (pos + i) else l₀)).2) := by
  rw [scan]
  split
  · next hn => rw [h] at hn; exact Option.noConfusion hn
  next j hj =>
    rw [h] at hj
    obtain rfl := (Option.some.inj hj).symm
    simp only [if_neg hs]

theorem scan_fst_le (ms pos : Nat) (p : List UInt8) (l₀ : Option Nat) :
    (scan ms pos p l₀).1 ≤ p.length := by
  induction pos, p, l₀ using scan.induct ms with
  | case1 pos p l₀ h => simp [scan_none h]
  | case2 pos p l₀ i h hstop =>
    have := idxNL_lt h
    rw [scan_some_stop h ms pos l₀ hstop]
    omega
  | case3 pos p l₀ i h lastNL' hstop ih =>
    have hi := idxNL_lt h
    rw [scan_some_cont h ms pos l₀ hstop]
    simp only [List.length_drop] at ih
    simp only [lastNL', dite_eq_ite] at ih
    omega

theorem scan_fst_pos (ms pos : Nat) (p : List UInt8) (l₀ : Option Nat) (hp : p ≠ []) :
    1 ≤ (scan ms pos p l₀).1 := by
  match h : idxNL p with
  | none => simp [scan_none h]; exact List.length_pos.mpr hp
  | some i =>
    by_cases hs : ms < pos + i + 1
    · rw [scan_some_stop h ms pos l₀ hs]
      simp
    · rw [scan_some_cont h ms pos l₀ hs]
      simp
      omega

theorem scan_snd_ge_aux (n : Nat) : ∀ (ms pos : Nat) (p : List UInt8),
    p.length ≤ n → ∀ (l₀ : Option Nat) (l : Nat),
    (scan ms pos p l₀).2 = some l → l₀ = some l ∨ pos ≤ l := by
  induction n with
  | zero =>
    intro ms pos p hp l₀ l h
    have : p = [] := List.eq_nil_of_length_eq_zero (Nat.le_zero.mp hp)
    subst this
    rw [scan_none (by rfl : idxNL ([] : List UInt8) = none)] at h
    exact Or.inl h
  | succ n ih =>
    intro ms pos p hp l₀ l h
    match hnl : idxNL p with
    | none =>
      rw [scan_none hnl] at h
      exact Or.inl h
    | some i =>
      by_cases hs : ms < pos + i + 1
      · rw [scan_some_stop hnl ms pos l₀ hs] at h
        simp only at h
        split at h
        · right
          obtain rfl := Option.some.inj h
          omega
        · exact Or.inl h
      · rw [scan_some_cont hnl ms pos l₀ hs] at h
        simp only at h
        have hlen : (p.drop (i + 1)).length ≤ n := by
          have := idxNL_lt hnl
          simp only [List.length_drop]
          omega
        rcases ih ms (pos + i + 1) (p.drop (i + 1)) hlen _ l h with h' | h'
        · split at h'
          · right
            obtain rfl := Option.some.inj h'
            omega
          · exact Or.inl h'
        · right; omega

theorem scan_snd_ge {ms pos : Nat} {p : List UInt8} {l₀ : Option Nat} {l : Nat}
    (h : (scan ms pos p l₀).2 = some l) : l₀ = some l ∨ pos ≤ l :=
  scan_snd_ge_aux p.length ms pos p (Nat.le_refl _) l₀ l h

/-- One iteration of the outer loop of `Write` (lines 197–244): scan the
remaining input, decide whether to clip and rotate, perform the `WriteAt`
(and the rotation, if scheduled).  Returns the number of bytes consumed
from `p`, the rotation flag, and the state after the iteration — or `none`
for the Go runtime panic raised by `p[:br]` when `br = int(max - wc.size)`
is negative (possible only when the file is already larger than
`max(lastNewline+1, maxSize)`, e.g. straight after opening an oversized
file whose last newline is below `maxSize`). -/
def writeStep (s : WCS) (p : List UInt8) : Option (Nat × Bool × WCS) :=
  let sc := scan s.maxSize s.size p s.lastNewline
  let c := sc.1
  match sc.2 with
  | none =>
    some (c, false, { s with live := writeAt s.live s.size (p.take c),
                             size := s.size + c, lastNewline := none })
  | some l =>
    let mx := if l + 1 < s.maxSize then s.maxSize else l + 1
    if mx < s.size + c then
      if s.size ≤ mx then
        let br := mx - s.size
        some (br, true,
          rotate { s with live := writeAt s.live s.size (p.take br),
                          size := s.size + br, lastNewline := some l })
      else none
    else
      some (c, false, { s with live := writeAt s.live s.size (p.take c),
                               size := s.size + c, lastNewline := some l })

theorem rotate_lastNewline (s : WCS) : (rotate s).lastNewline = none := rfl

theorem writeStep_nl_none {s : WCS} {p : List UInt8}
    (hnl : (scan s.maxSize s.size p s.lastNewline).2 = none) :
    writeStep s p = some ((scan s.maxSize s.size p s.lastNewline).1, false,
      { s with live := writeAt s.live s.size (p.take (scan s.maxSize s.size p s.lastNewline).1),
               size := s.size + (scan s.maxSize s.size p s.lastNewline).1,
               lastNewline := none }) := by
  simp only [writeStep]
  rw [hnl]

theorem writeStep_nl_some {s : WCS} {p : List UInt8} {l : Nat}
    (hnl : (scan s.maxSize s.size p s.lastNewline).2 = some l) :
    writeStep s p =
      (if (if l + 1 < s.maxSize then s.maxSize else l + 1) <
            s.size + (scan s.maxSize s.size p s.lastNewline).1 then
        if s.size ≤ (if l + 1 < s.maxSize then s.maxSize else l + 1) then
          some ((if l + 1 < s.maxSize then s.maxSize else l + 1) - s.size, true,
            rotate { s with
              live := writeAt s.live s.size
                (p.take ((if l + 1 < s.maxSize then s.maxSize else l + 1) - s.size)),
              size := s.size + ((if l + 1 < s.maxSize then s.maxSize else l + 1) - s.size),
              lastNewline := some l })
        else none
      else
        some ((scan s.maxSize s.size p s.lastNewline).1, false,
          { s with live := writeAt s.live s.size (p.take (scan s.maxSize s.size p s.lastNewline).1),
                   size := s.size + (scan s.maxSize s.size p s.lastNewline).1,
                   lastNewline := some l })) := by
  simp only [writeStep]
  rw [hnl]

theorem writeStep_br_le {s : WCS} {p : List UInt8} {br : Nat} {rot : Bool} {s2 : WCS}
    (h : writeStep s p = some (br, rot, s2)) : br ≤ p.length := by
  have hle := scan_fst_le s.maxSize s.size p s.lastNewline
  rcases hnl : (scan s.maxSize s.size p s.lastNewline).2 with _ | l
  · rw [writeStep_nl_none hnl] at h
    obtain ⟨h1, _⟩ := Prod.mk.inj (Option.some.inj h)
    omega
  · rw [writeStep_nl_some hnl] at h
    by_cases hclip : (if l + 1 < s.maxSize then s.maxSize else l + 1) <
        s.size + (scan s.maxSize s.size p s.lastNewline).1
    · rw [if_pos hclip] at h
      by_cases hsz : s.size ≤ (if l + 1 < s.maxSize then s.maxSize else l + 1)
      · rw [if_pos hsz] at h
        obtain ⟨h1, _⟩ := Prod.mk.inj (Option.some.inj h)
        omega
      · rw [if_neg hsz] at h
        exact Option.noConfusion h
    · rw [if_neg hclip] at h
      obtain ⟨h1, _⟩ := Prod.mk.inj (Option.some.inj h)
      omega

theorem writeStep_zero {s : WCS} {p : List UInt8} {rot : Bool} {s2 : WCS}
    (h : writeStep s p = some (0, rot, s2)) (hp : p ≠ []) :
    s2.lastNewline = none ∧ s.lastNewline ≠ none := by
  have hpos := scan_fst_pos s.maxSize s.size p s.lastNewline hp
  rcases hnl : (scan s.maxSize s.size p s.lastNewline).2 with _ | l
  · rw [writeStep_nl_none hnl] at h
    obtain ⟨h1, _⟩ := Prod.mk.inj (Option.some.inj h)
    omega
  · rw [writeStep_nl_some hnl] at h
    by_cases hclip : (if l + 1 < s.maxSize then s.maxSize else l + 1) <
        s.size + (scan s.maxSize s.size p s.lastNewline).1
    · rw [if_pos hclip] at h
      by_cases hsz : s.size ≤ (if l + 1 < s.maxSize then s.maxSize else l + 1)
      · rw [if_pos hsz] at h
        obtain ⟨hbr, h23⟩ := Prod.mk.inj (Option.some.inj h)
        obtain ⟨hrot, hs2⟩ := Prod.mk.inj h23
        refine ⟨hs2 ▸ rotate_lastNewline _, ?_⟩
        intro hnone
        rcases scan_snd_ge hnl with h' | h'
        · rw [hnone] at h'
          exact Option.noConfusion h'
        · -- the newline just recorded is at or past `size`: the clip is positive
          have hmx : s.size < (if l + 1 < s.maxSize then s.maxSize else l + 1) := by
            split <;> omega
          omega
      · rw [if_neg hsz] at h
        exact Option.noConfusion h
    · rw [if_neg hclip] at h
      obtain ⟨h1, _⟩ := Prod.mk.inj (Option.some.inj h)
      omega

/-- The outer loop of `Write` (lines 195–245): repeatedly run `writeStep`
on the unwritten remainder of `p`, accumulating the bytes written.  `none`
is the Go runtime panic (see `writeStep`). -/
def writeLoop (s : WCS) (p : List UInt8) : Option (Nat × WCS) :=
  match hp : p with
  | [] => some (0, s)
  | _ :: _ =>
    match hw : writeStep s p with
    | none => none
    | some (br, rot, s2) =>
      match writeLoop s2 (p.drop br) with
      | none => none
      | some (bw, s3) => some (br + bw, s3)
termination_by 2 * p.length + s.lastNewline.elim 0 (fun _ => 1)
decreasing_by
  subst hp
  have hble := writeStep_br_le hw
  have hflag2 : s2.lastNewline.elim 0 (fun _ => 1) ≤ 1 := by
    cases s2.lastNewline <;> simp
  simp only [List.length_drop, List.length_cons] at *
  rcases Nat.eq_zero_or_pos br with hz | hpos
  · subst hz
    obtain ⟨h2, h1⟩ := writeStep_zero hw (by simp)
    obtain ⟨x, hx⟩ := Option.ne_none_iff_exists'.mp h1
    simp only [hx, h2, Option.elim]
    omega
  · omega

/-- `(*writeCloser).Write` (lines 177–246), happy path for the underlying
file operations.  Returns `(bytesWritten, error, state)`; `none` is the Go
runtime panic (see `writeStep`).  The sticky-error check precedes the
registration of the deferred `wc.writeErr = err` save, so a sticky return
leaves the stored error untouched; the closed check runs after it and its
error is saved by the defer. -/
def Write (s : WCS) (p : List UInt8) : Option (Nat × Option Err × WCS) :=
  match s.writeErr with
  | some e => some (0, some (Err.sticky e), s)
  | none =>
    if s.closed then some (0, some Err.closed, { s with writeErr := some Err.closed })
    else
      match writeLoop s p with
      | none => none
      | some (bw, s') => some (bw, none, { s' with writeErr := none })

/-- `(*writeCloser).Close` (lines 248–259).  `closeRes` is the outcome of
the underlying `wc.file.Close()` call, attempted only when the writer is
not yet marked closed; on failure the error is returned *before*
`wc.closed = true` is reached, so a failed close leaves the writer
unmarked. -/
def Close (s : WCS) (closeRes : Option Err) : Option Err × WCS :=
  if s.closed then (none, s)
  else
    match closeRes with
    | some e => (some e, s)
    | none => (none, { s with closed := true })

/-- `bytes.LastIndexByte(buf, '\n')`: index of the last newline, if any. -/
def lastIdxNL : List UInt8 → Option Nat
  | [] => none
  | b :: t =>
    match lastIdxNL t with
    | some i => some (i + 1)
    | none => if b = 10 then some 0 else none

/-- The backward window scan of `Open` (lines 305–324): read the 8KB-aligned
window number `k` (bytes `[k*8192, k*8192 + 8192)` of the file, clipped to
the file length for the topmost window), search it for its last newline,
and on a miss move down one window.  The Go loop variable `off` is
`k * 8192`; the loop ends when `off` goes negative, i.e. after `k = 0`. -/
def openScanAux (c : List UInt8) : Nat → Option Nat
  | 0 => lastIdxNL (c.take 8192)
  | k + 1 =>
    match lastIdxNL ((c.drop ((k + 1) * 8192)).take 8192) with
    | some i => some ((k + 1) * 8192 + i)
    | none => openScanAux c k

/-- The last-newline determination of `Open`: for a zero-length file the Go
loop starts with `off = ((0-1) >> 13) << 13 = -8192 < 0`, so no read is
attempted and the sentinel is kept; otherwise the scan starts at the window
containing the last byte, `off = ((size-1) >> 13) << 13`. -/
def openLastNewline (c : List UInt8) : Option Nat :=
  match c.length with
  | 0 => none
  | n + 1 => openScanAux c (n / 8192)

/-- `Open` (lines 281–334), happy path: validate `maxSize`/`maxFiles`
(the Go parameters are `int64`/`int`, hence `Int` here), then build the
writer state from the existing file content (`content`) and the ambient
archives (`gz`, untouched by `Open`). -/
def openWC (path : String) (perm : Nat) (maxSize maxFiles : Int)
    (content : List UInt8) (gz : List (Nat × Gz)) : Option WCS :=
  if maxSize < 1 then none
  else if maxFiles < 1 then none
  else some { path := path, perm := perm,
              maxSize := maxSize.toNat, maxFiles := maxFiles.toNat,
              live := content, size := content.length,
              lastNewline := openLastNewline content,
              gz := gz, closed := false, writeErr := none }

/-! ## Spec-side characterization of the scanning loop

The spec (§4.1) describes the per-chunk boundary computation
declaratively: the line terminators of the unwritten input at their
would-be absolute offsets, the stop rule "continue until
`currentSize + bytesScanned > maxSize` or input exhausted", the recording
rule "record a terminator at offset `o` iff `o < maxSize` or no newline
has ever been recorded".  The following definitions are written from
those words and proved equal to the code-derived `scan`. -/

/-- The would-be absolute offsets of all line terminators of `p`, when the
head of `p` sits at absolute offset `pos`. -/
def termOffsets (pos : Nat) : List UInt8 → List Nat
  | [] => []
  | b :: t => if b = 10 then pos :: termOffsets (pos + 1) t else termOffsets (pos + 1) t

/-- Spec reading of the stop rule: scanning runs terminator by terminator
and stops just after the first terminator `o` whose inclusion makes the
scanned bytes reach past `maxSize` (`o + 1 > maxSize` absolute), else
consumes the whole input. -/
def specConsumed (ms pos : Nat) (p : List UInt8) : Nat :=
  (((termOffsets pos p).filter (fun o => decide (ms < o + 1))).head?).elim
    p.length (fun o => o + 1 - pos)

/-- Spec reading of the recording rule: the final `lastNewlineOffset` is
the last terminator below `maxSize` if there is one; otherwise the
previously recorded offset; otherwise (nothing ever recorded) the first
terminator of the input, recorded by virtue of being the first newline
ever. -/
def specRecorded (ms pos : Nat) (p : List UInt8) (l₀ : Option Nat) : Option Nat :=
  (((termOffsets pos p).filter (fun o => decide (o < ms))).getLast?).elim
    (l₀.elim ((termOffsets pos p).head?) some) some

theorem idxNL_none_termOffsets {p : List UInt8} (h : idxNL p = none) (pos : Nat) :
    termOffsets pos p = [] := by
  induction p generalizing pos with
  | nil => rfl
  | cons b t ih =>
    by_cases hb : b = 10
    · simp [idxNL, hb] at h
    · simp only [idxNL, hb, if_neg, ite_false] at h
      simp only [Option.map_eq_none'] at h
      simp [termOffsets, hb, ih h]

theorem idxNL_some_termOffsets {p : List UInt8} {i : Nat} (h : idxNL p = some i) (pos : Nat) :
    termOffsets pos p = (pos + i) :: termOffsets (pos + i + 1) (p.drop (i + 1)) := by
  induction p generalizing pos i with
  | nil => simp [idxNL] at h
  | cons b t ih =>
    by_cases hb : b = 10
    · simp [idxNL, hb] at h
      subst h
      simp [termOffsets, hb]
    · simp [idxNL, hb] at h
      obtain ⟨j, hj, rfl⟩ := h
      simp only [termOffsets, hb, if_neg, ite_false]
      rw [ih hj (pos + 1)]
      have h1 : pos + 1 + j = pos + (j + 1) := by omega
      have h2 : pos + 1 + j + 1 = pos + (j + 1) + 1 := by omega
      simp [h1, h2]

theorem termOffsets_mem {pos o : Nat} {p : List UInt8} (h : o ∈ termOffsets pos p) :
    pos ≤ o ∧ o - pos < p.length := by
  induction p generalizing pos with
  | nil => simp [termOffsets] at h
  | cons b t ih =>
    simp only [termOffsets] at h
    by_cases hb : b = 10
    · rw [if_pos hb] at h
      rcases List.mem_cons.mp h with rfl | h'
      · simp
      · have := ih h'
        simp only [List.length_cons]
        omega
    · rw [if_neg hb] at h
      have := ih h
      simp only [List.length_cons]
      omega

theorem termOffsets_getD {pos o : Nat} {p : List UInt8} (h : o ∈ termOffsets pos p) :
    p.getD (o - pos) 0 = 10 := by
  induction p generalizing pos with
  | nil => simp [termOffsets] at h
  | cons b t ih =>
    simp only [termOffsets] at h
    by_cases hb : b = 10
    · rw [if_pos hb] at h
      rcases List.mem_cons.mp h with rfl | h'
      · simp [hb]
      · have h1 := termOffsets_mem h'
        have h2 := ih h'
        have h3 : o - pos = (o - (pos + 1)) + 1 := by omega
        rw [h3]
        simpa using h2
    · rw [if_neg hb] at h
      have h1 := termOffsets_mem h
      have h2 := ih h
      have h3 : o - pos = (o - (pos + 1)) + 1 := by omega
      rw [h3]
      simpa using h2

theorem termOffsets_pairwise (pos : Nat) (p : List UInt8) :
    (termOffsets pos p).Pairwise (· < ·) := by
  induction p generalizing pos with
  | nil => simp [termOffsets]
  | cons b t ih =>
    simp only [termOffsets]
    by_cases hb : b = 10
    · rw [if_pos hb]
      refine List.pairwise_cons.mpr ⟨?_, ih (pos + 1)⟩
      intro o ho
      have := termOffsets_mem ho
      omega
    · rw [if_neg hb]
      exact ih (pos + 1)

theorem getLast?_cons_match {α : Type} (a : α) (l : List α) :
    (a :: l).getLast? =
      (match l.getLast? with
       | some x => some x
       | none => some a) := by
  induction l generalizing a with
  | nil => rfl
  | cons b t ih =>
    rw [List.getLast?_cons_cons, ih b]
    rcases ht : t.getLast? with _ | x
    · have : t = [] := List.getLast?_eq_none_iff.mp ht
      subst this
      rfl
    · rfl

theorem scan_spec_aux (n : Nat) : ∀ (ms pos : Nat) (p : List UInt8), p.length ≤ n →
    ∀ (l₀ : Option Nat),
    scan ms pos p l₀ = (specConsumed ms pos p, specRecorded ms pos p l₀) := by
  induction n with
  | zero =>
    intro ms pos p hp l₀
    have hpe : p = [] := List.eq_nil_of_length_eq_zero (Nat.le_zero.mp hp)
    subst hpe
    rw [scan_none (by rfl : idxNL ([] : List UInt8) = none)]
    cases l₀ <;> rfl
  | succ n ih =>
    intro ms pos p hp l₀
    match hnl : idxNL p with
    | none =>
      rw [scan_none hnl]
      have ht := idxNL_none_termOffsets hnl pos
      rw [specConsumed, specRecorded, ht]
      cases l₀ <;> rfl
    | some i =>
      have hto := idxNL_some_termOffsets hnl pos
      have hilt := idxNL_lt hnl
      by_cases hs : ms < pos + i + 1
      · -- stop just after the terminator at pos + i
        rw [scan_some_stop hnl ms pos l₀ hs]
        have hcons : specConsumed ms pos p = i + 1 := by
          rw [specConsumed, hto, List.filter_cons]
          have hpred : decide (ms < pos + i + 1) = true := decide_eq_true hs
          simp only [hpred, if_true, List.head?_cons, Option.elim_some]
          omega
        have hfe : ((termOffsets (pos + i + 1) (p.drop (i + 1))).filter
            (fun o => decide (o < ms))) = [] := by
          rw [List.filter_eq_nil_iff]
          intro o ho
          have := termOffsets_mem ho
          simp only [decide_eq_true_eq]
          omega
        have hrec : specRecorded ms pos p l₀ =
            if pos + i < ms ∨ l₀ = none then some (pos + i) else l₀ := by
          rw [specRecorded, hto, List.filter_cons]
          have hpred : decide (pos + i < ms) = false := by
            simp only [decide_eq_false_iff_not]
            omega
          simp only [hpred, Bool.false_eq_true, if_false, hfe, List.getLast?_nil,
            Option.elim_none, List.head?_cons]
          have hnotlt : ¬ (pos + i < ms) := by omega
          cases l₀ with
          | none => simp
          | some l => simp [hnotlt]
        rw [hcons, hrec]
      · -- the terminator at pos + i is strictly below maxSize: continue
        have hlen : (p.drop (i + 1)).length ≤ n := by
          simp only [List.length_drop]
          omega
        have hlt : pos + i < ms := by omega
        rw [scan_some_cont hnl ms pos l₀ hs]
        have hcond : pos + i < ms ∨ l₀ = none := Or.inl hlt
        rw [if_pos hcond, ih ms (pos + i + 1) (p.drop (i + 1)) hlen (some (pos + i))]
        have hcons : specConsumed ms pos p =
            i + 1 + specConsumed ms (pos + i + 1) (p.drop (i + 1)) := by
          rw [specConsumed, specConsumed, hto, List.filter_cons]
          have hpred : decide (ms < pos + i + 1) = false := by
            simp only [decide_eq_false_iff_not]
            omega
          simp only [hpred, Bool.false_eq_true, if_false]
          rcases hh : ((termOffsets (pos + i + 1) (p.drop (i + 1))).filter
              (fun o => decide (ms < o + 1))).head? with _ | o
          · simp only [hh, Option.elim_none, List.length_drop]
            omega
          · have ho : o ∈ termOffsets (pos + i + 1) (p.drop (i + 1)) :=
              List.mem_of_mem_filter (List.mem_of_mem_head? hh)
            have := termOffsets_mem ho
            simp only [hh, Option.elim_some]
            omega
        have hrec : specRecorded ms pos p l₀ =
            specRecorded ms (pos + i + 1) (p.drop (i + 1)) (some (pos + i)) := by
          rw [specRecorded, specRecorded, hto, List.filter_cons]
          have hpred : decide (pos + i < ms) = true := decide_eq_true hlt
          simp only [hpred, if_true]
          rw [getLast?_cons_match]
          rcases hh : ((termOffsets (pos + i + 1) (p.drop (i + 1))).filter
              (fun o => decide (o < ms))).getLast? with _ | o <;> simp [hh]
        rw [hcons, hrec]

theorem scan_spec (ms pos : Nat) (p : List UInt8) (l₀ : Option Nat) :
    scan ms pos p l₀ = (specConsumed ms pos p, specRecorded ms pos p l₀) :=
  scan_spec_aux p.length ms pos p (Nat.le_refl _) l₀

/-- The per-chunk boundary computation as the spec (§4.1) words it: scan
the unwritten prefix (`specConsumed`/`specRecorded`); when a newline has
been recorded let `boundary = max(lastNewlineOffset + 1, maxSize)`; if
`currentSize + bytesScanned` exceeds `boundary`, clip the chunk so the
write ends exactly at offset `boundary` and rotate immediately after the
chunk is written — amended with the one behaviour the spec sentence
misses: when `boundary < currentSize` (the file is already larger than
both `maxSize` and the recorded-newline cut, possible straight after
opening such a file), no clipped write is possible and the Go code panics
(`none`). -/
def specWriteStep (s : WCS) (p : List UInt8) : Option (Nat × Bool × WCS) :=
  let c := specConsumed s.maxSize s.size p
  match specRecorded s.maxSize s.size p s.lastNewline with
  | some l =>
    let boundary := Nat.max (l + 1) s.maxSize
    if boundary < s.size + c then
      if boundary < s.size then none
      else
        some (boundary - s.size, true,
          rotate { s with live := writeAt s.live s.size (p.take (boundary - s.size)),
                          size := boundary, lastNewline := some l })
    else
      some (c, false, { s with live := writeAt s.live s.size (p.take c),
                               size := s.size + c, lastNewline := some l })
  | none =>
    some (c, false, { s with live := writeAt s.live s.size (p.take c),
                             size := s.size + c, lastNewline := none })

theorem writeStep_eq_specWriteStep (s : WCS) (p : List UInt8) :
    writeStep s p = specWriteStep s p := by
  have hs := scan_spec s.maxSize s.size p s.lastNewline
  have hc1 : (scan s.maxSize s.size p s.lastNewline).1 = specConsumed s.maxSize s.size p := by
    rw [hs]
  rcases hnl : specRecorded s.maxSize s.size p s.lastNewline with _ | l
  · have h2 : (scan s.maxSize s.size p s.lastNewline).2 = none := by rw [hs, hnl]
    rw [writeStep_nl_none h2]
    simp only [specWriteStep, hnl, hc1]
  · have h2 : (scan s.maxSize s.size p s.lastNewline).2 = some l := by rw [hs, hnl]
    rw [writeStep_nl_some h2]
    simp only [specWriteStep, hnl, hc1]
    have hmx : (if l + 1 < s.maxSize then s.maxSize else l + 1) = Nat.max (l + 1) s.maxSize := by
      rcases Nat.lt_or_ge (l + 1) s.maxSize with h | h
      · rw [if_pos h]
        exact (Nat.max_eq_right (Nat.le_of_lt h)).symm
      · rw [if_neg (Nat.not_lt.mpr h)]
        exact (Nat.max_eq_left h).symm
    rw [hmx]
    by_cases hclip : Nat.max (l + 1) s.maxSize < s.size + specConsumed s.maxSize s.size p
    · rw [if_pos hclip, if_pos hclip]
      by_cases hsz : s.size ≤ Nat.max (l + 1) s.maxSize
      · rw [if_pos hsz, if_neg (by omega)]
        have hb : s.size + (Nat.max (l + 1) s.maxSize - s.size) = Nat.max (l + 1) s.maxSize := by
          omega
        rw [hb]
      · rw [if_neg hsz, if_pos (by omega)]
    · rw [if_neg hclip, if_neg hclip]

/-! ## Small file-operation lemmas -/

theorem mem_of_getLast?_eq {l : List Nat} {a : Nat} (h : l.getLast? = some a) : a ∈ l := by
  have hx : a ∈ l.getLast? := by rw [h]; rfl
  obtain ⟨hne, rfl⟩ := List.mem_getLast?_eq_getLast hx
  exact List.getLast_mem hne

theorem writeAt_append {c : List UInt8} {off : Nat} (h : off = c.length) (p : List UInt8) :
    writeAt c off p = c ++ p := by
  subst h
  simp [writeAt, List.take_length, List.drop_eq_nil_of_le]

theorem writeAt_zero_eq (c q : List UInt8) : writeAt c 0 q = q ++ c.drop q.length := by
  simp [writeAt]

theorem truncate_append_left (q r : List UInt8) : truncate (q ++ r) q.length = q := by
  have h1 : q.length - (q ++ r).length = 0 := by simp
  simp [truncate, List.take_left, h1]

/-! ## The writer invariant: `size` is the true file length, and the
recorded newline offset (when present) is inside the file and points at a
`\n` byte. -/

def inv (s : WCS) : Bool :=
  (s.size == s.live.length) &&
    (match s.lastNewline with
     | none => true
     | some l => decide (l < s.size) && (s.live.getD l 0 == 10))

theorem inv_iff {s : WCS} : inv s = true ↔
    (s.size = s.live.length ∧
      ∀ l, s.lastNewline = some l → l < s.size ∧ s.live.getD l 0 = 10) := by
  unfold inv
  rcases hnl : s.lastNewline with _ | l
  · simp
  · simp only [Bool.and_eq_true, beq_iff_eq, decide_eq_true_eq, Option.some.injEq]
    constructor
    · rintro ⟨h1, h2, h3⟩
      exact ⟨h1, fun l' hl' => hl' ▸ ⟨h2, h3⟩⟩
    · rintro ⟨h1, h2⟩
      obtain ⟨h3, h4⟩ := h2 l rfl
      exact ⟨h1, h3, h4⟩

/-- Effect of a rotation on the live file (the compaction and truncation
steps, lines 155–173), given the invariant. -/
theorem rotate_state {s : WCS} {l : Nat} (hsz : s.size = s.live.length)
    (hl : s.lastNewline = some l) (hlt : l < s.size) :
    (rotate s).live = s.live.drop (l + 1) ∧ (rotate s).size = s.size - (l + 1) := by
  have hdlen : (s.live.drop (l + 1)).length = s.size - (l + 1) := by
    simp [hsz]
  have hsec : (s.live.drop (l + 1)).take (s.size - (l + 1)) = s.live.drop (l + 1) := by
    apply List.take_of_length_le
    omega
  have hrest : writeAt s.live 0 (s.live.drop (l + 1)) =
      s.live.drop (l + 1) ++ s.live.drop (s.live.drop (l + 1)).length :=
    writeAt_zero_eq _ _
  have htr : truncate (s.live.drop (l + 1) ++ s.live.drop (s.live.drop (l + 1)).length)
      (s.size - (l + 1)) = s.live.drop (l + 1) := by
    rw [← hdlen]
    exact truncate_append_left _ _
  constructor
  · simp only [rotate, hl]
    rw [hsec, hrest, htr]
  · simp [rotate, hl]

/-- A rotation never grows the file, and with the sentinel it is the
identity on the live file (`CopyN` of `0` bytes, full-length compaction). -/
theorem rotate_state_none {s : WCS} (hsz : s.size = s.live.length)
    (hl : s.lastNewline = none) :
    (rotate s).live = s.live ∧ (rotate s).size = s.size := by
  have hsec : (s.live.drop 0).take (s.size - 0) = s.live := by
    rw [List.drop_zero]
    exact List.take_of_length_le (by omega)
  have hw : writeAt s.live 0 s.live = s.live := by
    rw [writeAt_zero_eq, List.drop_eq_nil_of_le (Nat.le_refl _), List.append_nil]
  have htr : truncate s.live (s.size - 0) = s.live := by
    unfold truncate
    have hc : s.size - 0 - s.live.length = 0 := by omega
    rw [List.take_of_length_le (by omega), hc]
    simp
  constructor
  · simp only [rotate, hl]
    rw [hsec, hw, htr]
  · simp [rotate, hl]

theorem rotate_inv {s : WCS} (hinv : inv s = true) : inv (rotate s) = true := by
  obtain ⟨hsz, hnl⟩ := inv_iff.mp hinv
  apply inv_iff.mpr
  rcases hl : s.lastNewline with _ | l
  · obtain ⟨h1, h2⟩ := rotate_state_none hsz hl
    refine ⟨by rw [h1, h2, hsz], ?_⟩
    intro l' hl'
    rw [rotate_lastNewline] at hl'
    exact Option.noConfusion hl'
  · obtain ⟨hlt, _⟩ := hnl l hl
    obtain ⟨h1, h2⟩ := rotate_state hsz hl hlt
    refine ⟨by rw [h1, h2]; simp [hsz], ?_⟩
    intro l' hl'
    rw [rotate_lastNewline] at hl'
    exact Option.noConfusion hl'

theorem specConsumed_le (ms pos : Nat) (p : List UInt8) : specConsumed ms pos p ≤ p.length := by
  have h := scan_fst_le ms pos p none
  rw [scan_spec] at h
  exact h

theorem getD_take_lt {p : List UInt8} {j n : Nat} (h : j < n) :
    (p.take n).getD j 0 = p.getD j 0 := by
  rw [List.getD_eq_getElem?_getD, List.getD_eq_getElem?_getD, List.getElem?_take, if_pos h]

theorem specRecorded_cases {ms pos : Nat} {p : List UInt8} {l₀ : Option Nat} {l : Nat}
    (h : specRecorded ms pos p l₀ = some l) :
    l₀ = some l ∨ (l ∈ termOffsets pos p ∧ l < pos + specConsumed ms pos p) := by
  unfold specRecorded at h
  rcases hg : ((termOffsets pos p).filter (fun o => decide (o < ms))).getLast? with _ | o
  · rw [hg, Option.elim_none] at h
    rcases hl0 : l₀ with _ | l''
    · rw [hl0] at h
      simp only [Option.elim_none] at h
      right
      have hmem : l ∈ termOffsets pos p := List.mem_of_mem_head? (by rw [h]; rfl)
      refine ⟨hmem, ?_⟩
      unfold specConsumed
      rcases hh : ((termOffsets pos p).filter (fun o => decide (ms < o + 1))).head? with _ | o'
      · simp only [Option.elim_none]
        have := termOffsets_mem hmem
        omega
      · simp only [Option.elim_some]
        have ho' : o' ∈ termOffsets pos p :=
          List.mem_of_mem_filter (List.mem_of_mem_head? (by rw [hh]; rfl))
        have hge := termOffsets_mem ho'
        have hpw := termOffsets_pairwise pos p
        rcases hT : termOffsets pos p with _ | ⟨a, t⟩
        · rw [hT] at h
          exact absurd h (by simp)
        · rw [hT] at h
          simp only [List.head?_cons, Option.some.injEq] at h
          subst h
          rw [hT] at ho' hpw
          rcases List.mem_cons.mp ho' with rfl | hmo
          · omega
          · have := (List.pairwise_cons.mp hpw).1 o' hmo
            omega
    · rw [hl0] at h
      simp only [Option.elim_some] at h
      exact Or.inl h
  · rw [hg, Option.elim_some] at h
    obtain rfl := Option.some.inj h
    right
    have hmf := mem_of_getLast?_eq hg
    obtain ⟨hmem, hflt⟩ := List.mem_filter.mp hmf
    simp only [decide_eq_true_eq] at hflt
    refine ⟨hmem, ?_⟩
    unfold specConsumed
    rcases hh : ((termOffsets pos p).filter (fun o => decide (ms < o + 1))).head? with _ | o'
    · simp only [Option.elim_none]
      have := termOffsets_mem hmem
      omega
    · simp only [Option.elim_some]
      have hfm := List.mem_filter.mp (List.mem_of_mem_head? (show o' ∈ _ from by rw [hh]; rfl))
      have hstop : ms < o' + 1 := by simpa using hfm.2
      have := termOffsets_mem hfm.1
      omega

theorem written_length {s : WCS} {p : List UInt8} {br : Nat} (hsz : s.size = s.live.length)
    (hbrle : br ≤ p.length) : (s.live ++ p.take br).length = s.size + br := by
  simp only [List.length_append, List.length_take]
  omega

theorem written_newline_byte {s : WCS} {p : List UInt8} {l br : Nat}
    (hsz : s.size = s.live.length)
    (hnlp : ∀ l', s.lastNewline = some l' → l' < s.size ∧ s.live.getD l' 0 = 10)
    (hrec : specRecorded s.maxSize s.size p s.lastNewline = some l)
    (hwithin : l < s.size + br) :
    (s.live ++ p.take br).getD l 0 = 10 := by
  rcases specRecorded_cases hrec with hold | ⟨hmem, _⟩
  · obtain ⟨hlt, hbyte⟩ := hnlp l hold
    rw [List.getD_append _ _ _ _ (by omega : l < s.live.length)]
    exact hbyte
  · obtain ⟨hge, _⟩ := termOffsets_mem hmem
    rw [List.getD_append_right _ _ _ _ (by omega : s.live.length ≤ l)]
    have hj : l - s.live.length = l - s.size := by rw [hsz]
    rw [hj, getD_take_lt (by omega : l - s.size < br)]
    exact termOffsets_getD hmem

theorem writeStep_inv {s : WCS} {p : List UInt8} {br : Nat} {rot : Bool} {s2 : WCS}
    (hinv : inv s = true) (h : writeStep s p = some (br, rot, s2)) : inv s2 = true := by
  obtain ⟨hsz, hnlp⟩ := inv_iff.mp hinv
  have hcle := specConsumed_le s.maxSize s.size p
  rw [writeStep_eq_specWriteStep] at h
  unfold specWriteStep at h
  rcases hrec : specRecorded s.maxSize s.size p s.lastNewline with _ | l
  · rw [hrec] at h
    simp only at h
    obtain ⟨hbr, h23⟩ := Prod.mk.inj (Option.some.inj h)
    obtain ⟨hrot, hs2⟩ := Prod.mk.inj h23
    apply inv_iff.mpr
    rw [← hs2]
    dsimp only
    refine ⟨?_, ?_⟩
    · rw [writeAt_append hsz]
      exact (written_length hsz hcle).symm
    · intro l' hl'
      exact absurd hl' (by simp)
  · rw [hrec] at h
    simp only at h
    by_cases hclip : Nat.max (l + 1) s.maxSize < s.size + specConsumed s.maxSize s.size p
    · rw [if_pos hclip] at h
      by_cases hpanic : Nat.max (l + 1) s.maxSize < s.size
      · rw [if_pos hpanic] at h
        exact Option.noConfusion h
      · rw [if_neg hpanic] at h
        obtain ⟨hbr, h23⟩ := Prod.mk.inj (Option.some.inj h)
        obtain ⟨hrot, hs2⟩ := Prod.mk.inj h23
        rw [← hs2]
        apply rotate_inv
        apply inv_iff.mpr
        dsimp only
        have hlb : l + 1 ≤ Nat.max (l + 1) s.maxSize := Nat.le_max_left _ _
        have hbrle : Nat.max (l + 1) s.maxSize - s.size ≤ p.length := by omega
        refine ⟨?_, ?_⟩
        · rw [writeAt_append hsz, written_length hsz hbrle]
          omega
        · intro l' hl'
          simp only [Option.some.injEq] at hl'
          subst hl'
          refine ⟨by omega, ?_⟩
          rw [writeAt_append hsz]
          exact written_newline_byte hsz hnlp hrec (by omega)
    · rw [if_neg hclip] at h
      obtain ⟨hbr, h23⟩ := Prod.mk.inj (Option.some.inj h)
      obtain ⟨hrot, hs2⟩ := Prod.mk.inj h23
      rw [← hs2]
      apply inv_iff.mpr
      dsimp only
      refine ⟨?_, ?_⟩
      · rw [writeAt_append hsz]
        exact (written_length hsz hcle).symm
      · intro l' hl'
        simp only [Option.some.injEq] at hl'
        subst hl'
        have hwithin : l < s.size + specConsumed s.maxSize s.size p := by
          rcases specRecorded_cases hrec with hold | ⟨_, hb⟩
          · have := (hnlp l hold).1
            omega
          · exact hb
        refine ⟨hwithin, ?_⟩
        rw [writeAt_append hsz]
        exact written_newline_byte hsz hnlp hrec hwithin

theorem writeLoop_nil (s : WCS) : writeLoop s [] = some (0, s) := by
  rw [writeLoop]

theorem writeLoop_step_none {s : WCS} {p : List UInt8} (hp : p ≠ [])
    (hw : writeStep s p = none) : writeLoop s p = none := by
  obtain ⟨a, t, rfl⟩ := List.exists_cons_of_ne_nil hp
  rw [writeLoop]
  split
  · rfl
  next br rot s2 hws =>
    rw [hw] at hws
    exact Option.noConfusion hws

theorem writeLoop_step_some {s : WCS} {p : List UInt8} {br : Nat} {rot : Bool} {s2 : WCS}
    (hp : p ≠ []) (hw : writeStep s p = some (br, rot, s2)) :
    writeLoop s p =
      (match writeLoop s2 (p.drop br) with
       | none => none
       | some (bw, s3) => some (br + bw, s3)) := by
  obtain ⟨a, t, rfl⟩ := List.exists_cons_of_ne_nil hp
  rw [writeLoop]
  split
  · next hws =>
    rw [hw] at hws
    exact Option.noConfusion hws
  next br' rot' s2' hws =>
    rw [hw] at hws
    obtain ⟨h1, h23⟩ := Prod.mk.inj (Option.some.inj hws)
    obtain ⟨h2, h3⟩ := Prod.mk.inj h23
    rw [h1, h3]

theorem writeLoop_length (s : WCS) (p : List UInt8) :
    ∀ bw s', writeLoop s p = some (bw, s') → bw = p.length := by
  induction s, p using writeLoop.induct with
  | case1 s =>
    intro bw s' h
    rw [writeLoop_nil] at h
    obtain ⟨h1, _⟩ := Prod.mk.inj (Option.some.inj h)
    simp [← h1]
  | case2 s a t hw =>
    intro bw s' h
    rw [writeLoop_step_none (by simp) hw] at h
    exact Option.noConfusion h
  | case3 s a t br rot s2 hw hwl ih =>
    intro bw s' h
    rw [writeLoop_step_some (by simp) hw] at h
    simp only [hwl] at h
    exact Option.noConfusion h
  | case4 s a t br rot s2 bw0 s3 hw hwl ih =>
    intro bw s' h
    rw [writeLoop_step_some (by simp) hw] at h
    simp only [hwl] at h
    obtain ⟨h1, _⟩ := Prod.mk.inj (Option.some.inj h)
    have hbw0 := ih bw0 s3 hwl
    have hbrle := writeStep_br_le hw
    simp only [List.length_drop, List.length_cons] at hbw0 hbrle ⊢
    omega

theorem writeLoop_inv (s : WCS) (p : List UInt8) :
    inv s = true → ∀ bw s', writeLoop s p = some (bw, s') → inv s' = true := by
  induction s, p using writeLoop.induct with
  | case1 s =>
    intro hi bw s' h
    rw [writeLoop_nil] at h
    obtain ⟨_, h2⟩ := Prod.mk.inj (Option.some.inj h)
    rw [← h2]
    exact hi
  | case2 s a t hw =>
    intro hi bw s' h
    rw [writeLoop_step_none (by simp) hw] at h
    exact Option.noConfusion h
  | case3 s a t br rot s2 hw hwl ih =>
    intro hi bw s' h
    rw [writeLoop_step_some (by simp) hw] at h
    simp only [hwl] at h
    exact Option.noConfusion h
  | case4 s a t br rot s2 bw0 s3 hw hwl ih =>
    intro hi bw s' h
    rw [writeLoop_step_some (by simp) hw] at h
    simp only [hwl] at h
    obtain ⟨_, h2⟩ := Prod.mk.inj (Option.some.inj h)
    rw [← h2]
    exact ih (writeStep_inv hi hw) bw0 s3 hwl

/-! ## The Newline Locator (backward window scan of `Open`) -/

/-- Spec-side description of the Newline Locator result: the offset of the
last line terminator of the file (found here as the first terminator of
the reversed file), or `none` when the file contains no terminator. -/
def specLastNewline (c : List UInt8) : Option Nat :=
  (idxNL c.reverse).map (fun i => c.length - 1 - i)

theorem idxNL_append (a b : List UInt8) :
    idxNL (a ++ b) =
      (match idxNL a with
       | some i => some i
       | none => (idxNL b).map (fun i => a.length + i)) := by
  induction a with
  | nil =>
    simp only [List.nil_append, idxNL, List.length_nil]
    cases hb : idxNL b <;> simp
  | cons x a ih =>
    by_cases hx : x = 10
    · simp [idxNL, hx]
    · show (if x = 10 then some 0 else (idxNL (a ++ b)).map (· + 1)) = _
      rw [if_neg hx, ih]
      cases ha : idxNL a with
      | some i =>
        show some (i + 1) = _
        show _ = (match (if x = 10 then some 0 else (idxNL a).map (· + 1)) with
                  | some i => some i
                  | none => (idxNL b).map (fun i => (x :: a).length + i))
        rw [if_neg hx, ha]
        rfl
      | none =>
        show ((idxNL b).map (fun i => a.length + i)).map (· + 1) = _
        show _ = (match (if x = 10 then some 0 else (idxNL a).map (· + 1)) with
                  | some i => some i
                  | none => (idxNL b).map (fun i => (x :: a).length + i))
        rw [if_neg hx, ha]
        cases hb : idxNL b with
        | some j =>
          simp only [Option.map_some', Option.map_none', List.length_cons]
          congr 1
          omega
        | none => rfl

theorem lastIdxNL_append (a b : List UInt8) :
    lastIdxNL (a ++ b) =
      (match lastIdxNL b with
       | some i => some (a.length + i)
       | none => lastIdxNL a) := by
  induction a with
  | nil =>
    simp only [List.nil_append, List.length_nil]
    cases hb : lastIdxNL b with
    | some i => simp
    | none => simp [lastIdxNL]
  | cons x a ih =>
    show (match lastIdxNL (a ++ b) with
          | some i => some (i + 1)
          | none => if x = 10 then some 0 else none) = _
    rw [ih]
    cases hb : lastIdxNL b with
    | some i =>
      show some (a.length + i + 1) = some ((x :: a).length + i)
      simp only [List.length_cons]
      congr 1
      omega
    | none => rfl

theorem specLastNewline_eq (c : List UInt8) : specLastNewline c = lastIdxNL c := by
  induction c with
  | nil => rfl
  | cons x t ih =>
    unfold specLastNewline at ih ⊢
    rw [List.reverse_cons, idxNL_append]
    cases ht : idxNL t.reverse with
    | some i =>
      rw [ht] at ih
      have hi : i < t.length := by
        have := idxNL_lt ht
        simpa using this
      simp only [Option.map_some'] at ih
      show some ((x :: t).length - 1 - i) = lastIdxNL (x :: t)
      show _ = (match lastIdxNL t with
                | some j => some (j + 1)
                | none => if x = 10 then some 0 else none)
      rw [← ih]
      simp only [List.length_cons]
      congr 1
      omega
    | none =>
      rw [ht] at ih
      simp only [Option.map_none'] at ih
      show ((idxNL [x]).map (fun i => t.reverse.length + i)).map
          (fun i => (x :: t).length - 1 - i) = lastIdxNL (x :: t)
      show _ = (match lastIdxNL t with
                | some j => some (j + 1)
                | none => if x = 10 then some 0 else none)
      rw [← ih]
      by_cases hx : x = 10
      · show ((idxNL [x]).map (fun i => t.reverse.length + i)).map
            (fun i => (x :: t).length - 1 - i) = (if x = 10 then some 0 else none)
        have hone : idxNL [x] = some 0 := by simp [idxNL, hx]
        rw [hone, if_pos hx]
        simp only [Option.map_some', List.length_reverse, List.length_cons]
        congr 1
        omega
      · show ((idxNL [x]).map (fun i => t.reverse.length + i)).map
            (fun i => (x :: t).length - 1 - i) = (if x = 10 then some 0 else none)
        have hone : idxNL [x] = none := by simp [idxNL, hx]
        rw [hone, if_neg hx]
        rfl

theorem lastIdxNL_bounds {c : List UInt8} {l : Nat} (h : lastIdxNL c = some l) :
    l < c.length ∧ c.getD l 0 = 10 := by
  induction c generalizing l with
  | nil => exact Option.noConfusion h
  | cons x t ih =>
    simp only [lastIdxNL] at h
    cases ht : lastIdxNL t with
    | some i =>
      rw [ht] at h
      obtain rfl := (Option.some.inj h).symm
      obtain ⟨h1, h2⟩ := ih ht
      constructor
      · simp only [List.length_cons]
        omega
      · simpa using h2
    | none =>
      rw [ht] at h
      by_cases hx : x = 10
      · rw [if_pos hx] at h
        obtain rfl := (Option.some.inj h).symm
        constructor
        · simp
        · simpa using hx
      · rw [if_neg hx] at h
        exact Option.noConfusion h

theorem openScanAux_eq (c : List UInt8) :
    ∀ k, k * 8192 < c.length →
      openScanAux c k = lastIdxNL (c.take (k * 8192 + 8192)) := by
  intro k
  induction k with
  | zero =>
    intro hk
    rfl
  | succ k ih =>
    intro hk
    have hsplit : c.take ((k + 1) * 8192 + 8192) =
        c.take ((k + 1) * 8192) ++ (c.drop ((k + 1) * 8192)).take 8192 := by
      rw [← List.take_add]
    have hlen : (c.take ((k + 1) * 8192)).length = (k + 1) * 8192 := by
      rw [List.length_take]
      omega
    rw [hsplit, lastIdxNL_append]
    show (match lastIdxNL ((c.drop ((k + 1) * 8192)).take 8192) with
          | some i => some ((k + 1) * 8192 + i)
          | none => openScanAux c k) = _
    rw [hlen]
    cases hw : lastIdxNL ((c.drop ((k + 1) * 8192)).take 8192) with
    | some i => rfl
    | none =>
      have hk' : k * 8192 < c.length := by
        have hmul : k * 8192 < (k + 1) * 8192 := by omega
        omega
      rw [ih hk']
      have harith : k * 8192 + 8192 = (k + 1) * 8192 := by ring
      rw [harith]

theorem openLastNewline_eq (c : List UInt8) : openLastNewline c = lastIdxNL c := by
  unfold openLastNewline
  cases hc : c.length with
  | zero =>
    have hnil : c = [] := List.eq_nil_of_length_eq_zero hc
    subst hnil
    rfl
  | succ n =>
    show openScanAux c (n / 8192) = lastIdxNL c
    have hk : (n / 8192) * 8192 < c.length := by
      have := Nat.div_mul_le_self n 8192
      omega
    rw [openScanAux_eq c (n / 8192) hk]
    have htake : c.take ((n / 8192) * 8192 + 8192) = c := by
      apply List.take_of_length_le
      have := Nat.div_add_mod n 8192
      have h2 : n % 8192 < 8192 := Nat.mod_lt _ (by omega)
      omega
    rw [htake]

/-! ## Archive bookkeeping: lookup characterizations of the rotation's
probe / evict / shift phases, and the gap-free archive invariant. -/

theorem lookup_cons_self {k : Nat} {v : Gz} {t : List (Nat × Gz)} :
    List.lookup k ((k, v) :: t) = some v := by
  simp [List.lookup_cons]

theorem lookup_cons_ne {k j : Nat} {v : Gz} {t : List (Nat × Gz)} (h : j ≠ k) :
    List.lookup j ((k, v) :: t) = List.lookup j t := by
  have hbeq : (j == k) = false := beq_eq_false_iff_ne.mpr h
  rw [List.lookup_cons, hbeq]

theorem gzRemove_cons (k : Nat) (v : Gz) (t : List (Nat × Gz)) (n : Nat) :
    gzRemove ((k, v) :: t) n =
      if k = n then gzRemove t n else (k, v) :: gzRemove t n := by
  simp only [gzRemove, List.filter_cons]
  by_cases hk : k = n <;> simp [hk]

theorem gzRemove_lookup (gz : List (Nat × Gz)) (n j : Nat) :
    (gzRemove gz n).lookup j = if j = n then none else gz.lookup j := by
  induction gz with
  | nil => simp [gzRemove]
  | cons e t ih =>
    obtain ⟨k, v⟩ := e
    rw [gzRemove_cons]
    by_cases hk : k = n
    · rw [if_pos hk, ih]
      by_cases hj : j = n
      · rw [if_pos hj, if_pos hj]
      · rw [if_neg hj, if_neg hj, lookup_cons_ne (by omega)]
    · rw [if_neg hk]
      by_cases hj : j = k
      · subst hj
        rw [lookup_cons_self, lookup_cons_self, if_neg hk]
      · rw [lookup_cons_ne hj, lookup_cons_ne hj, ih]

theorem lookup_eq_none_iff (gz : List (Nat × Gz)) (j : Nat) :
    gz.lookup j = none ↔ j ∉ gz.map Prod.fst := by
  induction gz with
  | nil => simp
  | cons e t ih =>
    obtain ⟨k, v⟩ := e
    simp only [List.map_cons, List.mem_cons]
    by_cases hj : j = k
    · subst hj
      rw [lookup_cons_self]
      simp
    · rw [lookup_cons_ne hj]
      simp [hj, ih]

theorem lookup_isSome_iff_mem (gz : List (Nat × Gz)) (j : Nat) :
    (gz.lookup j).isSome = true ↔ j ∈ gz.map Prod.fst := by
  rcases h : gz.lookup j with _ | v
  · simp [(lookup_eq_none_iff gz j).mp h]
  · simp only [Option.isSome_some, true_iff]
    by_contra hmem
    rw [← lookup_eq_none_iff gz j] at hmem
    rw [h] at hmem
    exact Option.noConfusion hmem

theorem gzRename_lookup {gz : List (Nat × Gz)} {n m : Nat}
    (hm : gz.lookup m = none) (hnm : n ≠ m) (j : Nat) :
    (gzRename gz n m).lookup j =
      if j = m then gz.lookup n else if j = n then none else gz.lookup j := by
  unfold gzRename
  rcases hn : gz.lookup n with _ | c
  · split_ifs with h1 h2
    · rw [h1]
      exact hm
    · rw [h2]
      exact hn
    · rfl
  · by_cases hj : j = m
    · subst hj
      rw [if_pos rfl, lookup_cons_self]
    · rw [if_neg hj, lookup_cons_ne hj, gzRemove_lookup, gzRemove_lookup]
      by_cases hj' : j = n
      · subst hj'
        simp
      · simp [hj, hj']

theorem gzRemove_keys_nodup {gz : List (Nat × Gz)} (h : (gz.map Prod.fst).Nodup) (n : Nat) :
    ((gzRemove gz n).map Prod.fst).Nodup :=
  ((List.filter_sublist gz).map Prod.fst).nodup h

theorem gzRename_keys_nodup {gz : List (Nat × Gz)} (h : (gz.map Prod.fst).Nodup) (n m : Nat) :
    ((gzRename gz n m).map Prod.fst).Nodup := by
  unfold gzRename
  rcases hn : gz.lookup n with _ | c
  · exact h
  · simp only [List.map_cons]
    refine List.nodup_cons.mpr ⟨?_, ?_⟩
    · rw [← lookup_eq_none_iff]
      rw [gzRemove_lookup, gzRemove_lookup]
      simp
    · exact gzRemove_keys_nodup (gzRemove_keys_nodup h n) m

/-- The archives on disk are exactly `<path>.1.gz … <path>.N.gz`, gap-free
(spec §3: "Archive files are named `<path>.<n>.gz` for `n` in `1..k` with
no gaps"). -/
def GapFree (gz : List (Nat × Gz)) (N : Nat) : Prop :=
  List.Perm (gz.map Prod.fst) (List.range' 1 N)

instance (gz : List (Nat × Gz)) (N : Nat) : Decidable (GapFree gz N) := by
  unfold GapFree
  infer_instance

theorem GapFree_nodup {gz : List (Nat × Gz)} {N : Nat} (h : GapFree gz N) :
    (gz.map Prod.fst).Nodup :=
  h.symm.nodup (List.nodup_range' 1 N)

theorem GapFree_lookup {gz : List (Nat × Gz)} {N : Nat} (h : GapFree gz N) (j : Nat) :
    (gz.lookup j).isSome = true ↔ (1 ≤ j ∧ j ≤ N) := by
  rw [lookup_isSome_iff_mem, h.mem_iff, List.mem_range'_1]
  omega

theorem GapFree_length {gz : List (Nat × Gz)} {N : Nat} (h : GapFree gz N) :
    gz.length = N := by
  have h1 := h.length_eq
  simpa using h1

theorem GapFree_of_lookup {gz : List (Nat × Gz)} {k : Nat}
    (hnd : (gz.map Prod.fst).Nodup)
    (h : ∀ j, (gz.lookup j).isSome = true ↔ (1 ≤ j ∧ j ≤ k)) : GapFree gz k := by
  unfold GapFree
  rw [List.perm_ext_iff_of_nodup hnd (List.nodup_range' 1 k)]
  intro j
  rw [← lookup_isSome_iff_mem, h j, List.mem_range'_1]
  omega

theorem probeGo_ge (gz : List (Nat × Gz)) : ∀ fuel n, n ≤ probeGo gz fuel n := by
  intro fuel
  induction fuel with
  | zero =>
    intro n
    simp [probeGo]
  | succ fuel ih =>
    intro n
    unfold probeGo
    split
    · exact Nat.le_trans (by omega) (ih (n + 1))
    · exact Nat.le_refl n

theorem probeGo_eq {gz : List (Nat × Gz)} {N : Nat}
    (hch : ∀ j, (gz.lookup j).isSome = true ↔ (1 ≤ j ∧ j ≤ N)) :
    ∀ fuel n, n ≤ N → N ≤ n + fuel → probeGo gz fuel n = N := by
  intro fuel
  induction fuel with
  | zero =>
    intro n h1 h2
    simp [probeGo]
    omega
  | succ fuel ih =>
    intro n h1 h2
    unfold probeGo
    by_cases hn : n = N
    · have hfalse : (gz.lookup (n + 1)).isSome = false := by
        rcases hl : (gz.lookup (n + 1)).isSome with _ | _
        · rfl
        · have := (hch (n + 1)).mp hl
          omega
      rw [hfalse]
      simp [hn]
    · have hsome : (gz.lookup (n + 1)).isSome = true := (hch (n + 1)).mpr (by omega)
      rw [hsome]
      simp only [if_true]
      exact ih (n + 1) (by omega) (by omega)

theorem probeN_eq {gz : List (Nat × Gz)} {N : Nat} (h : GapFree gz N) :
    probeN gz = N := by
  unfold probeN
  rw [GapFree_length h]
  exact probeGo_eq (GapFree_lookup h) N 0 (by omega) (by omega)

theorem evict_snd (mf : Nat) (gz : List (Nat × Gz)) (n : Nat) :
    (evict mf gz n).2 = min n (mf - 2) := by
  induction n generalizing gz with
  | zero => simp [evict]
  | succ n ih =>
    unfold evict
    by_cases hc : mf - 2 < n + 1
    · rw [if_pos hc, ih]
      omega
    · rw [if_neg hc]
      simp only
      omega

theorem evict_lookup (mf : Nat) (gz : List (Nat × Gz)) (n : Nat) (j : Nat) :
    ((evict mf gz n).1).lookup j =
      if mf - 2 < j ∧ j ≤ n then none else gz.lookup j := by
  induction n generalizing gz with
  | zero =>
    show gz.lookup j = _
    rw [if_neg (by omega)]
  | succ n ih =>
    unfold evict
    by_cases hc : mf - 2 < n + 1
    · rw [if_pos hc, ih, gzRemove_lookup]
      by_cases hj : j = n + 1
      · subst hj
        rw [if_neg (by omega), if_pos rfl, if_pos (by omega)]
      · rw [if_neg hj]
        by_cases hj2 : mf - 2 < j ∧ j ≤ n
        · rw [if_pos hj2, if_pos (by omega)]
        · rw [if_neg hj2, if_neg (by omega)]
    · rw [if_neg hc]
      show gz.lookup j = _
      rw [if_neg (by omega)]

theorem evict_keys_nodup {gz : List (Nat × Gz)} (h : (gz.map Prod.fst).Nodup)
    (mf : Nat) (n : Nat) : (((evict mf gz n).1).map Prod.fst).Nodup := by
  induction n generalizing gz with
  | zero => exact h
  | succ n ih =>
    unfold evict
    by_cases hc : mf - 2 < n + 1
    · rw [if_pos hc]
      exact ih (gzRemove_keys_nodup h (n + 1))
    · rw [if_neg hc]
      exact h

theorem shift_lookup : ∀ (n : Nat) (gz : List (Nat × Gz)), gz.lookup (n + 1) = none →
    ∀ j, (shift gz n).lookup j =
      if 1 ≤ j - 1 ∧ j - 1 ≤ n then gz.lookup (j - 1)
      else if 1 ≤ j ∧ j ≤ n then none
      else gz.lookup j := by
  intro n
  induction n with
  | zero =>
    intro gz h j
    show gz.lookup j = _
    rw [if_neg (by omega), if_neg (by omega)]
  | succ n ih =>
    intro gz h j
    show (shift (gzRename gz (n + 1) (n + 2)) n).lookup j = _
    have hrn := gzRename_lookup h (by omega : n + 1 ≠ n + 2)
    have h' : (gzRename gz (n + 1) (n + 2)).lookup (n + 1) = none := by
      rw [hrn (n + 1), if_neg (by omega), if_pos rfl]
    rw [ih (gzRename gz (n + 1) (n + 2)) h' j]
    by_cases c1 : 1 ≤ j - 1 ∧ j - 1 ≤ n
    · rw [if_pos c1, hrn (j - 1), if_neg (by omega), if_neg (by omega), if_pos (by omega)]
    · rw [if_neg c1]
      by_cases c2 : 1 ≤ j ∧ j ≤ n
      · rw [if_pos c2, if_neg (by omega), if_pos (by omega)]
      · rw [if_neg c2, hrn j]
        by_cases c3 : j = n + 2
        · rw [if_pos c3, if_pos (by omega)]
          congr 1
          omega
        · rw [if_neg c3]
          by_cases c4 : j = n + 1
          · rw [if_pos c4, if_neg (by omega), if_pos (by omega)]
          · rw [if_neg c4, if_neg (by omega), if_neg (by omega)]

theorem shift_keys_nodup : ∀ (n : Nat) (gz : List (Nat × Gz)),
    (gz.map Prod.fst).Nodup → ((shift gz n).map Prod.fst).Nodup := by
  intro n
  induction n with
  | zero => intro gz h; exact h
  | succ n ih =>
    intro gz h
    exact ih _ (gzRename_keys_nodup h (n + 1) (n + 2))

theorem rotate_gz (s : WCS) :
    (rotate s).gz =
      (if 1 < s.maxFiles then
        (1, Gz.mk (s.live.take
          (match s.lastNewline with | some l => l + 1 | none => 0))) ::
          shift (evict s.maxFiles s.gz (probeN s.gz)).1
            (evict s.maxFiles s.gz (probeN s.gz)).2
      else
        shift (evict s.maxFiles s.gz (probeN s.gz)).1
          (evict s.maxFiles s.gz (probeN s.gz)).2) := rfl

/-- After a rotation starting from a gap-free archive set `1..N`, the
archives are again gap-free `1..k`, with `k = min N (maxFiles-2) + 1`
when an archive is created (`maxFiles > 1`) and `k = 0` when archive
creation is skipped (`maxFiles = 1`, where the eviction loop deletes every
archive). -/
theorem rotate_gapfree {s : WCS} {N : Nat} (hgf : GapFree s.gz N) :
    GapFree (rotate s).gz
      (if 1 < s.maxFiles then min N (s.maxFiles - 2) + 1 else 0) := by
  have hch := GapFree_lookup hgf
  have hnd := GapFree_nodup hgf
  have hpn : probeN s.gz = N := probeN_eq hgf
  have hmin1 : min N (s.maxFiles - 2) ≤ N := Nat.min_le_left _ _
  have hmin2 : min N (s.maxFiles - 2) ≤ s.maxFiles - 2 := Nat.min_le_right _ _
  have hmin3 : min N (s.maxFiles - 2) = N ∨ min N (s.maxFiles - 2) = s.maxFiles - 2 :=
    min_choice _ _
  have hev2 : (evict s.maxFiles s.gz (probeN s.gz)).2 = min N (s.maxFiles - 2) := by
    rw [hpn, evict_snd]
  have hevsome : ∀ j, (((evict s.maxFiles s.gz (probeN s.gz)).1).lookup j).isSome = true ↔
      (1 ≤ j ∧ j ≤ min N (s.maxFiles - 2)) := by
    intro j
    rw [hpn, evict_lookup]
    by_cases hc : s.maxFiles - 2 < j ∧ j ≤ N
    · rw [if_pos hc]
      simp only [Option.isSome_none, Bool.false_eq_true, false_iff]
      omega
    · rw [if_neg hc, hch j]
      omega
  have hevnd := evict_keys_nodup hnd s.maxFiles (probeN s.gz)
  have habs : ((evict s.maxFiles s.gz (probeN s.gz)).1).lookup
      ((evict s.maxFiles s.gz (probeN s.gz)).2 + 1) = none := by
    rw [hev2]
    rcases hl : ((evict s.maxFiles s.gz (probeN s.gz)).1).lookup
        (min N (s.maxFiles - 2) + 1) with _ | v
    · rfl
    · exfalso
      have := (hevsome (min N (s.maxFiles - 2) + 1)).mp (by rw [hl]; rfl)
      omega
  have hshl := shift_lookup (evict s.maxFiles s.gz (probeN s.gz)).2
      (evict s.maxFiles s.gz (probeN s.gz)).1 habs
  have hshsome : ∀ j,
      ((shift (evict s.maxFiles s.gz (probeN s.gz)).1
        (evict s.maxFiles s.gz (probeN s.gz)).2).lookup j).isSome = true ↔
      (2 ≤ j ∧ j ≤ min N (s.maxFiles - 2) + 1) := by
    intro j
    rw [hshl j, hev2]
    by_cases c1 : 1 ≤ j - 1 ∧ j - 1 ≤ min N (s.maxFiles - 2)
    · rw [if_pos c1, hevsome (j - 1)]
      omega
    · rw [if_neg c1]
      by_cases c2 : 1 ≤ j ∧ j ≤ min N (s.maxFiles - 2)
      · rw [if_pos c2]
        simp only [Option.isSome_none, Bool.false_eq_true, false_iff]
        omega
      · rw [if_neg c2, hevsome j]
        omega
  have hshnd := shift_keys_nodup (evict s.maxFiles s.gz (probeN s.gz)).2
      (evict s.maxFiles s.gz (probeN s.gz)).1 hevnd
  rw [rotate_gz]
  by_cases hmf : 1 < s.maxFiles
  · rw [if_pos hmf, if_pos hmf]
    apply GapFree_of_lookup
    · simp only [List.map_cons]
      refine List.nodup_cons.mpr ⟨?_, hshnd⟩
      rw [← lookup_eq_none_iff]
      rcases hl : (shift (evict s.maxFiles s.gz (probeN s.gz)).1
          (evict s.maxFiles s.gz (probeN s.gz)).2).lookup 1 with _ | v
      · rfl
      · exfalso
        have := (hshsome 1).mp (by rw [hl]; rfl)
        omega
    · intro j
      by_cases hj : j = 1
      · subst hj
        rw [lookup_cons_self]
        simp only [Option.isSome_some, true_iff]
        omega
      · rw [lookup_cons_ne hj, hshsome j]
        omega
  · rw [if_neg hmf, if_neg hmf]
    apply GapFree_of_lookup hshnd
    intro j
    rw [hshsome j]
    omega

theorem rotate_gz_lookup1_create {s : WCS} {l : Nat} (hl : s.lastNewline = some l)
    (hmf : 1 < s.maxFiles) :
    (rotate s).gz.lookup 1 = some (Gz.mk (s.live.take (l + 1))) := by
  rw [rotate_gz, if_pos hmf, hl]
  exact lookup_cons_self

theorem probeN_pos_of_lookup1 {gz : List (Nat × Gz)} (h : (gz.lookup 1).isSome = true) :
    1 ≤ probeN gz := by
  have hne : gz.length ≠ 0 := by
    intro h0
    have hnil : gz = [] := List.eq_nil_of_length_eq_zero h0
    rw [hnil] at h
    simp [List.lookup] at h
  obtain ⟨f, hf⟩ := Nat.exists_eq_succ_of_ne_zero hne
  unfold probeN
  rw [hf]
  show 1 ≤ probeGo gz (f + 1) 0
  unfold probeGo
  simp only [Nat.zero_add, h, if_true]
  exact probeGo_ge gz f 1

/-- With `maxFiles = 1` the eviction loop deletes every probed archive and
archive creation is skipped, so no archive `1` survives a rotation. -/
theorem rotate_gz_lookup1_skip {s : WCS} (hmf : s.maxFiles = 1) :
    (rotate s).gz.lookup 1 = none := by
  rw [rotate_gz, if_neg (by omega)]
  have h2 : (evict s.maxFiles s.gz (probeN s.gz)).2 = 0 := by
    rw [evict_snd, hmf]
    simp
  rw [h2]
  show ((evict s.maxFiles s.gz (probeN s.gz)).1).lookup 1 = none
  rw [evict_lookup]
  rcases hN : probeN s.gz with _ | n
  · rw [if_neg (by omega)]
    rcases hl : s.gz.lookup 1 with _ | v
    · rfl
    · exfalso
      have := @probeN_pos_of_lookup1 s.gz (by rw [hl]; rfl)
      omega
  · rw [if_pos (by omega)]

theorem writeLoop_no_newline {s : WCS} {p : List UInt8} (hp : p ≠ [])
    (hnl : s.lastNewline = none) (hp10 : idxNL p = none) :
    writeLoop s p = some (p.length,
      { s with live := writeAt s.live s.size p, size := s.size + p.length,
               lastNewline := none }) := by
  have hscan : scan s.maxSize s.size p s.lastNewline = (p.length, none) := by
    rw [scan_none hp10, hnl]
  have h2 : (scan s.maxSize s.size p s.lastNewline).2 = none := by rw [hscan]
  have hws : writeStep s p = some (p.length, false,
      { s with live := writeAt s.live s.size p, size := s.size + p.length,
               lastNewline := none }) := by
    rw [writeStep_nl_none h2]
    simp only [hscan, List.take_length]
  rw [writeLoop_step_some hp hws]
  have hdrop : p.drop p.length = [] := List.drop_eq_nil_of_le (Nat.le_refl _)
  rw [hdrop, writeLoop_nil]
  simp

theorem Write_sticky {s : WCS} {p : List UInt8} {e : Err} (h : s.writeErr = some e) :
    Write s p = some (0, some (Err.sticky e), s) := by
  unfold Write
  rw [h]

theorem Write_closed {s : WCS} {p : List UInt8} (h1 : s.writeErr = none)
    (h2 : s.closed = true) :
    Write s p = some (0, some Err.closed, { s with writeErr := some Err.closed }) := by
  unfold Write
  rw [h1, h2]
  simp

theorem Write_open {s : WCS} {p : List UInt8} (h1 : s.writeErr = none)
    (h2 : s.closed = false) :
    Write s p =
      (match writeLoop s p with
       | none => none
       | some (bw, s') => some (bw, none, { s' with writeErr := none })) := by
  unfold Write
  rw [h1, h2]
  simp

theorem open_establishes_inv {path : String} {perm : Nat} {ms mf : Int} {c : List UInt8}
    {gz : List (Nat × Gz)} {w : WCS} (h : openWC path perm ms mf c gz = some w) :
    inv w = true := by
  unfold openWC at h
  split at h
  · exact Option.noConfusion h
  · split at h
    · exact Option.noConfusion h
    · obtain rfl := (Option.some.inj h).symm
      apply inv_iff.mpr
      refine ⟨rfl, ?_⟩
      intro l hl
      have hlx : lastIdxNL c = some l := by
        rw [← openLastNewline_eq]
        exact hl
      exact lastIdxNL_bounds hlx

theorem Close_writeErr (s : WCS) (r : Option Err) : (Close s r).2.writeErr = s.writeErr := by
  unfold Close
  split
  · rfl
  · rcases r with _ | e
    · rfl
    · rfl

theorem Write_preserves_inv {s : WCS} {p : List UInt8} {r : Nat × Option Err × WCS}
    (hinv : inv s = true) (h : Write s p = some r) : inv r.2.2 = true := by
  rcases hwe : s.writeErr with _ | e
  · rcases hcl : s.closed with _ | _
    · rw [Write_open hwe hcl] at h
      rcases hwl : writeLoop s p with _ | ⟨bw, s'⟩
      · rw [hwl] at h
        exact Option.noConfusion h
      · rw [hwl] at h
        simp only at h
        obtain rfl := (Option.some.inj h).symm
        show inv { s' with writeErr := none } = true
        have hs' := writeLoop_inv s p hinv bw s' hwl
        rw [inv_iff] at hs' ⊢
        exact hs'
    · rw [Write_closed hwe hcl] at h
      obtain rfl := (Option.some.inj h).symm
      show inv { s with writeErr := some Err.closed } = true
      rw [inv_iff] at hinv ⊢
      exact hinv
  · rw [Write_sticky hwe] at h
    obtain rfl := (Option.some.inj h).symm
    exact hinv

/-! ## Sample states for the witnesses -/

/-- A small well-formed writer state: live file `"ab\nc"`, archives 1 and 2. -/
def sampleState : WCS :=
  { path := "logfile", perm := 384, maxSize := 10, maxFiles := 3,
    live := [97, 98, 10, 99], size := 4, lastNewline := some 2,
    gz := [(1, Gz.mk [100, 10]), (2, Gz.mk [101, 10])],
    closed := false, writeErr := none }

/-- A writer reopened on a file already far larger than `maxSize` whose last
newline sits below `maxSize` (e.g. `Open` on a 100-byte file whose only
newline is at offset 5, with `maxSize = 10`). -/
def panicState : WCS :=
  { path := "logfile", perm := 384, maxSize := 10, maxFiles := 3,
    live := List.replicate 5 97 ++ [10] ++ List.replicate 94 97,
    size := 100, lastNewline := some 5,
    gz := [], closed := false, writeErr := none }

/-- An empty, freshly created log with a small `maxSize`. -/
def c6State : WCS :=
  { path := "logfile", perm := 384, maxSize := 3, maxFiles := 2,
    live := [], size := 0, lastNewline := none, gz := [],
    closed := false, writeErr := none }

example : inv sampleState = true := by decide
example : GapFree sampleState.gz 2 := by decide

/-! ## The claims -/

/-- C1 (amended): for every write call on an open, error-free writer the
per-chunk boundary computation follows the specified algorithm — the code's
scanning loop records a terminator at absolute offset `o` iff `o < maxSize`
or no newline has ever been recorded, and stops once
`currentSize + bytesScanned > maxSize` or the input is exhausted
(`specConsumed` / `specRecorded`); when a newline has been recorded and
`currentSize + bytesScanned` exceeds `boundary = max(lastNewlineOffset + 1,
maxSize)`, then *provided `boundary ≥ currentSize`* the chunk is clipped so
the write ends exactly at offset `boundary` and a rotation is performed
immediately after that chunk is written; in the remaining case
`boundary < currentSize` (the file is already larger than the boundary,
reachable by opening an oversized file) no clipped write happens — the Go
slice expression `p[:br]` with negative `br` panics, modelled as `none`. -/
theorem C1_boundary_computation (s : WCS) (p : List UInt8) :
    writeStep s p = specWriteStep s p :=
  writeStep_eq_specWriteStep s p

/-- C1 counterexample: on `panicState` — an open, error-free writer — with
the one-byte input `"a"`, a newline stands recorded (offset 5) and
`currentSize + bytesScanned = 101` exceeds
`boundary = max(5 + 1, 10) = 10`, yet the claimed behaviour — a chunk
clipped so the write ends exactly at offset 10, followed by a rotation —
does not happen: no bytes are written and no rotation runs, because the
required clip length `int(10 - 100)` is negative and `p[:br]` panics
(the model's `none`). -/
theorem C1_counterexample :
    specRecorded panicState.maxSize panicState.size [97] panicState.lastNewline = some 5 ∧
    Nat.max (5 + 1) panicState.maxSize <
      panicState.size + specConsumed panicState.maxSize panicState.size [97] ∧
    writeStep panicState [97] = none := by
  refine ⟨by decide, by decide, ?_⟩
  rw [writeStep_eq_specWriteStep]
  decide

/-- C2: after every successful rotation, the live file holds exactly the
pre-rotation bytes beyond `lastNewlineOffset` moved to the start and is
truncated to that length, the in-memory state is updated by
`currentSize -= lastNewlineOffset + 1` and `lastNewlineOffset := none`,
archive 1 holds exactly the compressed byte range `[0, lastNewlineOffset]`
of the pre-rotation file when `maxFiles > 1`, and archive creation is
skipped entirely when `maxFiles = 1` (no archive 1 exists afterwards). -/
theorem C2_rotation_effects (s : WCS) (l : Nat) (hinv : inv s = true)
    (hl : s.lastNewline = some l) :
    (rotate s).live = s.live.drop (l + 1) ∧
    (rotate s).live.length = s.size - (l + 1) ∧
    (rotate s).size = s.size - (l + 1) ∧
    (rotate s).lastNewline = none ∧
    (1 < s.maxFiles → (rotate s).gz.lookup 1 = some (Gz.mk (s.live.take (l + 1)))) ∧
    (s.maxFiles = 1 → (rotate s).gz.lookup 1 = none) := by
  obtain ⟨hsz, hnlp⟩ := inv_iff.mp hinv
  obtain ⟨hlt, _⟩ := hnlp l hl
  obtain ⟨h1, h2⟩ := rotate_state hsz hl hlt
  refine ⟨h1, ?_, h2, rotate_lastNewline s,
    fun hmf => rotate_gz_lookup1_create hl hmf,
    fun hmf => rotate_gz_lookup1_skip hmf⟩
  rw [h1]
  simp [hsz]

theorem C2_witness :
    (inv sampleState = true ∧ sampleState.lastNewline = some 2) ∧
    ((rotate sampleState).live = sampleState.live.drop (2 + 1) ∧
     (rotate sampleState).live.length = sampleState.size - (2 + 1) ∧
     (rotate sampleState).size = sampleState.size - (2 + 1) ∧
     (rotate sampleState).lastNewline = none ∧
     (1 < sampleState.maxFiles →
       (rotate sampleState).gz.lookup 1 = some (Gz.mk (sampleState.live.take (2 + 1)))) ∧
     (sampleState.maxFiles = 1 → (rotate sampleState).gz.lookup 1 = none)) :=
  ⟨⟨by decide, rfl⟩, C2_rotation_effects sampleState 2 (by decide) rfl⟩

/-- C3: in every writer state reached after a successful open, write or
rotation, the invariant holds: `currentSize` is the live file's length and,
whenever `lastNewlineOffset` is not the sentinel, it lies strictly below
`currentSize` and the live file's byte there is `\n` (this is the Bool
predicate `inv`). -/
theorem C3_newline_invariant :
    (∀ (path : String) (perm : Nat) (ms mf : Int) (c : List UInt8)
        (gz : List (Nat × Gz)) (w : WCS),
        openWC path perm ms mf c gz = some w → inv w = true) ∧
    (∀ (s : WCS) (p : List UInt8) (r : Nat × Option Err × WCS),
        inv s = true → Write s p = some r → inv r.2.2 = true) ∧
    (∀ s : WCS, inv s = true → inv (rotate s) = true) :=
  ⟨fun _ _ _ _ _ _ _ h => open_establishes_inv h,
   fun _ _ _ hinv h => Write_preserves_inv hinv h,
   fun _ hinv => rotate_inv hinv⟩

theorem C3_witness : inv sampleState = true ∧ inv (rotate sampleState) = true :=
  ⟨by decide, C3_newline_invariant.2.2 sampleState (by decide)⟩

/-- C4: for every rotation starting from a gap-free archive set `1..N`
(and a validated `maxFiles ≥ 1`), the archives afterwards are gap-free
`1..k` with `k = min N (maxFiles - 2) + 1` when `maxFiles > 1` and `k = 0`
when `maxFiles = 1` — in both cases `k ≤ maxFiles - 1`, so the number of
retained archives never exceeds `maxFiles - 1`. -/
theorem C4_archive_cap (s : WCS) (N : Nat) (hgf : GapFree s.gz N)
    (hmf : 1 ≤ s.maxFiles) :
    GapFree (rotate s).gz (if 1 < s.maxFiles then min N (s.maxFiles - 2) + 1 else 0) ∧
    (if 1 < s.maxFiles then min N (s.maxFiles - 2) + 1 else 0) + 1 ≤ s.maxFiles := by
  refine ⟨rotate_gapfree hgf, ?_⟩
  have hmin2 : min N (s.maxFiles - 2) ≤ s.maxFiles - 2 := Nat.min_le_right _ _
  by_cases h : 1 < s.maxFiles
  · rw [if_pos h]
    omega
  · rw [if_neg h]
    omega

theorem C4_witness :
    (GapFree sampleState.gz 2 ∧ 1 ≤ sampleState.maxFiles) ∧
    (GapFree (rotate sampleState).gz
        (if 1 < sampleState.maxFiles then min 2 (sampleState.maxFiles - 2) + 1 else 0) ∧
     (if 1 < sampleState.maxFiles then min 2 (sampleState.maxFiles - 2) + 1 else 0) + 1 ≤
        sampleState.maxFiles) :=
  ⟨⟨by decide, by decide⟩, C4_archive_cap sampleState 2 (by decide) (by decide)⟩

/-- C5: the Newline Locator run at open time (`openLastNewline`, the
backward 8KB-window scan) returns, for every file content, the offset of
the last line terminator — `specLastNewline`, the spec-side description —
or `none` when the file contains no terminator; in particular a
zero-length file yields `none` (without a read: the scan loop is never
entered), and the answer is right even when the last terminator lies more
than one window before the end, since the statement quantifies over all
contents. -/
theorem C5_newline_locator (c : List UInt8) : openLastNewline c = specLastNewline c :=
  (openLastNewline_eq c).trans (specLastNewline_eq c).symm

/-- C6: a single write of one unterminated line longer than `maxSize` into
a writer with no recorded newline performs no rotation — the state changes
only by appending the input (archives, in particular, are untouched) — and
leaves the live file larger than `maxSize`; and in general the rotation
flag of a write iteration can only be set when the scan has a recorded
newline in hand. -/
theorem C6_long_line_no_rotation :
    (∀ (s : WCS) (p : List UInt8),
      s.writeErr = none → s.closed = false → s.lastNewline = none →
      idxNL p = none → s.maxSize < p.length →
      Write s p = some (p.length, none,
        { s with live := writeAt s.live s.size p, size := s.size + p.length,
                 lastNewline := none, writeErr := none }) ∧
      s.maxSize < s.size + p.length) ∧
    (∀ (s : WCS) (p : List UInt8) (br : Nat) (s2 : WCS),
      writeStep s p = some (br, true, s2) →
      (scan s.maxSize s.size p s.lastNewline).2.isSome = true) := by
  constructor
  · intro s p h1 h2 h3 h4 h5
    have hp : p ≠ [] := by
      intro he
      rw [he] at h5
      simp at h5
    have hwl := writeLoop_no_newline hp h3 h4
    constructor
    · rw [Write_open h1 h2, hwl]
    · omega
  · intro s p br s2 h
    rcases hnl : (scan s.maxSize s.size p s.lastNewline).2 with _ | l
    · rw [writeStep_nl_none hnl] at h
      obtain ⟨_, h23⟩ := Prod.mk.inj (Option.some.inj h)
      obtain ⟨hrot, _⟩ := Prod.mk.inj h23
      exact absurd hrot (by simp)
    · rfl

theorem C6_witness :
    Write c6State [97, 97, 97, 97] = some (([97, 97, 97, 97] : List UInt8).length, none,
      { c6State with live := writeAt c6State.live c6State.size [97, 97, 97, 97],
                     size := c6State.size + ([97, 97, 97, 97] : List UInt8).length,
                     lastNewline := none, writeErr := none }) ∧
    c6State.maxSize < c6State.size + ([97, 97, 97, 97] : List UInt8).length :=
  C6_long_line_no_rotation.1 c6State [97, 97, 97, 97] rfl rfl rfl (by decide) (by decide)

/-- C7: once a failure is stored in the sticky-error field, every
subsequent write call returns the derived sticky error and leaves the
whole state — file included — untouched (no I/O), and the stored failure
is never cleared: a close call, in particular, leaves it in place. -/
theorem C7_sticky_error (s : WCS) (p : List UInt8) (e : Err) (r : Option Err)
    (h : s.writeErr = some e) :
    Write s p = some (0, some (Err.sticky e), s) ∧ (Close s r).2.writeErr = some e :=
  ⟨Write_sticky h, (Close_writeErr s r).trans h⟩

theorem C7_witness :
    Write { sampleState with writeErr := some (Err.io 7) } [97] =
      some (0, some (Err.sticky (Err.io 7)), { sampleState with writeErr := some (Err.io 7) }) ∧
    (Close { sampleState with writeErr := some (Err.io 7) } none).2.writeErr =
      some (Err.io 7) :=
  C7_sticky_error { sampleState with writeErr := some (Err.io 7) } [97] (Err.io 7) none rfl

/-- C8 counterexample: on a closed writer with no stored error, the first
write call does fail with the closed error — but it stores that error as
the sticky error, so the second write call on the same closed writer fails
with the sticky wrapper instead (and the sticky check runs first): a write
after close is *not* always a closed error determined without consulting
the sticky state. -/
theorem C8_counterexample :
    Write { sampleState with closed := true } [97] =
      some (0, some Err.closed,
        { sampleState with closed := true, writeErr := some Err.closed }) ∧
    Write { sampleState with closed := true, writeErr := some Err.closed } [97] =
      some (0, some (Err.sticky Err.closed),
        { sampleState with closed := true, writeErr := some Err.closed }) ∧
    Err.sticky Err.closed ≠ Err.closed :=
  ⟨Write_closed rfl rfl, Write_sticky rfl, by decide⟩

/-- C8 (amended): a write call on a closed writer consults the sticky-error
state first; when no sticky error is stored, the call fails with the
"closed" error and that error is stored as the sticky error — so every
later write call on the closed writer fails through the sticky path with
an error derived from the closed error. -/
theorem C8_closed_write (s : WCS) (p : List UInt8) (h1 : s.closed = true)
    (h2 : s.writeErr = none) :
    Write s p = some (0, some Err.closed, { s with writeErr := some Err.closed }) :=
  Write_closed h2 h1

theorem C8_witness :
    Write { sampleState with closed := true } [98] =
      some (0, some Err.closed,
        { sampleState with closed := true, writeErr := some Err.closed }) :=
  C8_closed_write { sampleState with closed := true } [98] rfl rfl

/-- C9 counterexample: when the underlying file close fails, the writer is
*not* marked closed (the error return precedes `wc.closed = true`), and a
second close retries the underlying close and reports its failure — so "a
failed first close nonetheless marks the writer closed and a second close
reports no error" is false. -/
theorem C9_counterexample :
    Close sampleState (some (Err.io 0)) = (some (Err.io 0), sampleState) ∧
    sampleState.closed = false ∧
    (Close sampleState (some (Err.io 1))).1 = some (Err.io 1) := by
  refine ⟨?_, rfl, ?_⟩ <;> decide

/-- C9 (amended): close is idempotent once it has succeeded — the first
successful close marks the writer closed and every close call on a writer
already marked closed is a no-op returning no error, without touching the
file; but a close call whose underlying file close fails returns that
error and leaves the writer unmarked, so a subsequent close attempts the
underlying close again. -/
theorem C9_close_idempotent (s : WCS) (r : Option Err) (e : Err) :
    (s.closed = false → Close s none = (none, { s with closed := true })) ∧
    (s.closed = true → Close s r = (none, s)) ∧
    (s.closed = false → Close s (some e) = (some e, s)) := by
  refine ⟨?_, ?_, ?_⟩
  · intro h
    unfold Close
    rw [h]
    simp
  · intro h
    unfold Close
    rw [h]
    simp
  · intro h
    unfold Close
    rw [h]
    simp

theorem C9_witness :
    sampleState.closed = false ∧
    Close sampleState none = (none, { sampleState with closed := true }) :=
  ⟨rfl, (C9_close_idempotent sampleState none (Err.io 0)).1 rfl⟩

/-- C10: every write call on an open, non-closed writer with no sticky
error that returns at all returns a nil error together with a byte count
equal to the input's length (a write of empty input in particular returns
`(0, nil)`). -/
theorem C10_write_returns_full_count (s : WCS) (p : List UInt8)
    (r : Nat × Option Err × WCS) (h1 : s.writeErr = none) (h2 : s.closed = false)
    (h : Write s p = some r) : r.1 = p.length ∧ r.2.1 = none := by
  rw [Write_open h1 h2] at h
  rcases hwl : writeLoop s p with _ | ⟨bw, s'⟩
  · rw [hwl] at h
    exact Option.noConfusion h
  · rw [hwl] at h
    simp only at h
    obtain rfl := (Option.some.inj h).symm
    exact ⟨writeLoop_length s p bw s' hwl, rfl⟩

theorem C10_witness :
    (1 : Nat) = ([97] : List UInt8).length ∧ (none : Option Err) = none := by
  have hwl := @writeLoop_no_newline c6State [97] (by decide) rfl (by decide)
  have hw : Write c6State [97] = some (1, none,
      { c6State with live := writeAt c6State.live c6State.size [97],
                     size := c6State.size + 1, lastNewline := none,
                     writeErr := none }) := by
    rw [Write_open rfl rfl, hwl]
    rfl
  exact C10_write_returns_full_count c6State [97] _ rfl rfl hw

end Logrot
